import Mathlib

/-!
Verification of the launcher/renamer scripts of this repository against
their natural-language specification.

The development shallowly embeds the Python sources:

* `src/pictures/rename_by_age.py` — the age-based renamer.  A directory is
  modelled as a `List FileEntry` (name, last-modified timestamp, abstract
  content token); `glob.glob` with the four literal patterns becomes suffix
  filters with POSIX semantics (case-sensitive matching, entries whose name
  begins with a dot are never matched); Python's stable `list.sort(key=mtime,
  reverse=True)` becomes `List.insertionSort` with the reflexive descending
  relation on timestamps (stable, so ties keep listing order, exactly as
  Python's Timsort); `os.rename`/`os.path.exists` become operations on the
  entry list; console output becomes a list of structured messages, one per
  `print` call in the source; the `try/except` around an individual
  `os.rename` becomes an error oracle `errs : Nat → Option String` saying
  whether the i-th rename attempt raises (and with which message).
* `src/run.py` and `src/play_latest.py` — the exit-status behaviour of
  `main` as a function of the environment (Node present, companion files
  present, story found, subprocess exit code, exception raised).
* `src/play_story_choice.py` — `get_all_stories` and the construction of
  `available_stories`.
-/

/-- A directory entry: file name, last-modified timestamp, and an abstract
token standing for the file's contents (renaming moves contents between
names; contents are lost only if a file is overwritten). -/
structure FileEntry where
  name : String
  mtime : Nat
  content : Nat
deriving DecidableEq

/-- Embeds Python `s.startswith(p)` (and the glob rule that `*` never
matches a leading dot): `p` is a prefix of `s`. -/
def strStartsWith (s p : String) : Bool :=
  p.data.isPrefixOf s.data

/-- Embeds "the name ends with this extension", the effect of a glob
pattern `*.ext` on a plain file name: `p` is a suffix of `s`. -/
def strEndsWith (s p : String) : Bool :=
  p.data.isSuffixOf s.data

theorem strStartsWith_iff (s p : String) :
    strStartsWith s p = true ↔ p.data <+: s.data := by
  simp [strStartsWith]

theorem strEndsWith_iff (s p : String) :
    strEndsWith s p = true ↔ p.data <:+ s.data := by
  simp [strEndsWith]

/-- Fuel-driven decimal digit expansion of a natural number (most
significant digit first); structural recursion so that the kernel can
evaluate it on literals. -/
def decDigitsAux : Nat → Nat → List Char
  | 0, _ => []
  | fuel + 1, n =>
    if n < 10 then [Nat.digitChar n]
    else decDigitsAux fuel (n / 10) ++ [Nat.digitChar (n % 10)]

/-- Decimal digits of `n`, most significant first. -/
def decDigits (n : Nat) : List Char :=
  decDigitsAux (n + 1) n

theorem decDigitsAux_eq_of_lt (n : Nat) :
    ∀ fuel fuel', n < fuel → n < fuel' →
      decDigitsAux fuel n = decDigitsAux fuel' n := by
  induction n using Nat.strong_induction_on with
  | _ n ih =>
    intro fuel fuel' h h'
    match fuel, fuel' with
    | f + 1, f' + 1 =>
      simp only [decDigitsAux]
      by_cases h10 : n < 10
      · simp [h10]
      · have hdiv : n / 10 < n := Nat.div_lt_self (by omega) (by omega)
        simp only [h10, if_false]
        rw [ih (n / 10) hdiv f f' (by omega) (by omega)]

theorem decDigits_eq (n : Nat) :
    decDigits n =
      if n < 10 then [Nat.digitChar n]
      else decDigits (n / 10) ++ [Nat.digitChar (n % 10)] := by
  have h1 : decDigits n = if n < 10 then [Nat.digitChar n]
      else decDigitsAux n (n / 10) ++ [Nat.digitChar (n % 10)] := rfl
  rw [h1]
  by_cases h10 : n < 10
  · simp [h10]
  · have hdiv : n / 10 < n := Nat.div_lt_self (by omega) (by omega)
    simp only [h10, if_false]
    rw [decDigitsAux_eq_of_lt (n / 10) n (n / 10 + 1) (by omega) (by omega)]
    rfl

theorem decDigits_ne_nil (n : Nat) : decDigits n ≠ [] := by
  rw [decDigits_eq]
  by_cases h10 : n < 10 <;> simp [h10]

/-- Numeric value of a decimal digit character. -/
def digitVal (c : Char) : Nat := c.toNat - 48

/-- Value of a most-significant-first digit string. -/
def parseDigits (ds : List Char) : Nat :=
  ds.foldl (fun a c => 10 * a + digitVal c) 0

theorem digitVal_digitChar : ∀ d, d < 10 → digitVal (Nat.digitChar d) = d := by
  decide

theorem decDigits_foldl (n : Nat) :
    ∀ a, (decDigits n).foldl (fun a c => 10 * a + digitVal c) a
      = a * 10 ^ (decDigits n).length + n := by
  induction n using Nat.strong_induction_on with
  | _ n ih =>
    intro a
    rw [decDigits_eq]
    by_cases h10 : n < 10
    · simp [h10, List.foldl, digitVal_digitChar n h10]
      omega
    · have hdiv : n / 10 < n := Nat.div_lt_self (by omega) (by omega)
      simp only [h10, if_false, List.foldl_append, List.foldl_cons, List.foldl_nil,
        List.length_append, List.length_cons, List.length_nil]
      rw [ih (n / 10) hdiv a]
      have hmod : n % 10 < 10 := Nat.mod_lt _ (by omega)
      rw [digitVal_digitChar _ hmod]
      have : 10 * (a * 10 ^ (decDigits (n / 10)).length + n / 10) + n % 10
          = a * (10 ^ (decDigits (n / 10)).length * 10) + (10 * (n / 10) + n % 10) := by
        ring
      rw [this, Nat.div_add_mod, pow_succ]

theorem parseDigits_decDigits (n : Nat) : parseDigits (decDigits n) = n := by
  have := decDigits_foldl n 0
  simpa [parseDigits] using this

/-- Embeds the Python format expression `f"{i:04d}"`: the decimal digits of
`i`, left-padded with `'0'` to width 4. -/
def fmt04 (n : Nat) : String :=
  ⟨List.replicate (4 - (decDigits n).length) '0' ++ decDigits n⟩

/-- Embeds the target-name computation `f"{i:04d}.jpg"` on line 29 of
`src/pictures/rename_by_age.py`. -/
def targetName (i : Nat) : String :=
  fmt04 i ++ ".jpg"

theorem parseDigits_replicate_zero (k : Nat) (ds : List Char) :
    parseDigits (List.replicate k '0' ++ ds) = parseDigits ds := by
  induction k with
  | zero => simp
  | succ k ihk =>
    simpa [parseDigits, List.replicate_succ, List.foldl_cons, digitVal] using ihk

theorem fmt04_inj {m n : Nat} (h : fmt04 m = fmt04 n) : m = n := by
  have hdata : (List.replicate (4 - (decDigits m).length) '0' ++ decDigits m)
      = (List.replicate (4 - (decDigits n).length) '0' ++ decDigits n) :=
    congrArg String.data h
  have hm := parseDigits_replicate_zero (4 - (decDigits m).length) (decDigits m)
  have hn := parseDigits_replicate_zero (4 - (decDigits n).length) (decDigits n)
  rw [parseDigits_decDigits] at hm hn
  rw [← hm, ← hn, hdata]

theorem targetName_inj {m n : Nat} (h : targetName m = targetName n) : m = n := by
  apply fmt04_inj
  have hdata : (fmt04 m).data ++ ".jpg".data = (fmt04 n).data ++ ".jpg".data := by
    simpa [targetName, String.data_append] using congrArg String.data h
  have h2 : (fmt04 m).data = (fmt04 n).data := List.append_cancel_right hdata
  cases hm : fmt04 m with
  | mk dm => cases hn : fmt04 n with
    | mk dn =>
      rw [hm, hn] at h2
      simp only at h2
      exact congrArg String.mk h2

theorem decDigits_length_le : ∀ (k n : Nat), n < 10 ^ (k + 1) →
    (decDigits n).length ≤ k + 1 := by
  intro k
  induction k with
  | zero =>
    intro n hn
    rw [decDigits_eq]
    have h10 : n < 10 := by simpa using hn
    simp [h10]
  | succ k ihk =>
    intro n hn
    rw [decDigits_eq]
    by_cases h10 : n < 10
    · simp [h10]
    · have hdivlt : n / 10 < 10 ^ (k + 1) := by
        rw [Nat.div_lt_iff_lt_mul (by omega : 0 < 10)]
        have hpow : 10 ^ (k + 1 + 1) = 10 ^ (k + 1) * 10 := pow_succ 10 (k + 1)
        omega
      have := ihk (n / 10) hdivlt
      simp only [h10, if_false, List.length_append, List.length_cons, List.length_nil]
      omega

theorem decDigits_toNat_lt : ∀ (n : Nat), ∀ c ∈ decDigits n, c.toNat < 58 := by
  intro n
  induction n using Nat.strong_induction_on with
  | _ n ih =>
    intro c hc
    rw [decDigits_eq] at hc
    by_cases h10 : n < 10
    · simp only [h10, if_true, List.mem_singleton] at hc
      subst hc
      have : ∀ d, d < 10 → (Nat.digitChar d).toNat < 58 := by decide
      exact this n h10
    · simp only [h10, if_false, List.mem_append, List.mem_singleton] at hc
      rcases hc with hc | hc
      · exact ih (n / 10) (Nat.div_lt_self (by omega) (by omega)) c hc
      · subst hc
        have : ∀ d, d < 10 → (Nat.digitChar d).toNat < 58 := by decide
        exact this (n % 10) (Nat.mod_lt _ (by omega))

theorem fmt04_head : ∀ (n : Nat), ∃ c cs, (fmt04 n).data = c :: cs ∧ c.toNat < 58 := by
  intro n
  show ∃ c cs, List.replicate (4 - (decDigits n).length) '0' ++ decDigits n = c :: cs ∧ _
  cases hrep : 4 - (decDigits n).length with
  | zero =>
    cases hd : decDigits n with
    | nil => exact absurd hd (decDigits_ne_nil n)
    | cons c cs =>
      refine ⟨c, cs, by simp [hrep, hd], ?_⟩
      exact decDigits_toNat_lt n c (by rw [hd]; exact List.mem_cons_self c cs)
  | succ m =>
    refine ⟨'0', List.replicate m '0' ++ decDigits n, ?_, by decide⟩
    simp [List.replicate_succ]

theorem fmt04_startsWith_zero {n : Nat} (hn : n ≤ 999) :
    strStartsWith (fmt04 n) "0" = true := by
  have hlen : (decDigits n).length ≤ 3 := by
    have : n < 10 ^ (2 + 1) := by omega
    exact decDigits_length_le 2 n this
  rw [strStartsWith_iff]
  show ['0'] <+: _
  show ['0'] <+: List.replicate (4 - (decDigits n).length) '0' ++ decDigits n
  cases hrep : 4 - (decDigits n).length with
  | zero => omega
  | succ m =>
    rw [List.replicate_succ]
    exact ⟨List.replicate m '0' ++ decDigits n, by simp⟩

/-- Messages printed by `rename_images_by_age`, one constructor per `print`
call in `src/pictures/rename_by_age.py`, carrying the interpolated values. -/
inductive Msg where
  | noJpgFiles : Msg
  | nothingToRename : Msg
  | warnExists (target source : String) : Msg
  | renamed (source target : String) : Msg
  | errorRenaming (source errText : String) : Msg
  | summary (count : Nat) : Msg
deriving DecidableEq

/-- Embeds `glob.glob('*' + suf)` on a directory listing, with POSIX glob
semantics: an entry matches when its name ends in `suf` and does not begin
with a dot (glob's `*` never matches a leading `.`). -/
def globFilter (fs : List FileEntry) (suf : String) : List FileEntry :=
  fs.filter (fun e => !strStartsWith e.name "." && strEndsWith e.name suf)

/-- Embeds line 7 of `src/pictures/rename_by_age.py`:
`glob.glob('*.jpg') + glob.glob('*.JPG') + glob.glob('*.jpeg') + glob.glob('*.JPEG')`. -/
def jpgFiles (fs : List FileEntry) : List FileEntry :=
  globFilter fs ".jpg" ++ globFilter fs ".JPG" ++ globFilter fs ".jpeg" ++ globFilter fs ".JPEG"

/-- Embeds lines 14-18: keep the glob results whose name does not start
with `'0'`, pairing each with its modification time (already carried by the
entry). -/
def fileInfo (fs : List FileEntry) : List FileEntry :=
  (jpgFiles fs).filter (fun e => !strStartsWith e.name "0")

/-- Embeds line 25, `file_info.sort(key=lambda x: x[1], reverse=True)`:
stable sort, newest first.  `List.insertionSort` with the reflexive
descending comparison is stable in the same sense as Python's Timsort. -/
def rankedCandidates (fs : List FileEntry) : List FileEntry :=
  List.insertionSort (fun a b => b.mtime ≤ a.mtime) (fileInfo fs)

/-- Embeds `os.rename(old, new)` on a directory: any entry named `new` is
replaced (POSIX rename clobbers), and the entry named `old` now bears the
name `new`.  (The caller in `rename_by_age.py` only renames after checking
that `new` does not exist, so the clobbering branch is never reached.) -/
def renameFile (fs : List FileEntry) (old new : String) : List FileEntry :=
  (fs.filter (fun e => !(e.name == new))).map
    (fun e => if e.name = old then { e with name := new } else e)

/-- Embeds one iteration of the loop on lines 28-40: compute the target
name from the rank, skip with a warning if it exists, otherwise attempt the
rename; `errs i = some msg` models the `except` branch — the i-th
`os.rename` call raising with text `msg`; an `os.rename` whose source is
gone raises `FileNotFoundError`. -/
def renameStep (errs : Nat → Option String) (fs : List FileEntry) (i : Nat)
    (old : String) : List FileEntry × Msg :=
  let new := targetName i
  if new ∈ fs.map FileEntry.name then
    (fs, Msg.warnExists new old)
  else
    match errs i with
    | some msg => (fs, Msg.errorRenaming old msg)
    | none =>
      if old ∈ fs.map FileEntry.name then
        (renameFile fs old new, Msg.renamed old new)
      else
        (fs, Msg.errorRenaming old "FileNotFoundError")

/-- Embeds the loop `for i, (old_name, _) in enumerate(file_info):` of
lines 28-40, processing the ranked candidate names in order starting at
rank `i`, threading the directory state. -/
def renameLoop (errs : Nat → Option String) (fs : List FileEntry) (i : Nat) :
    List String → List FileEntry × List Msg
  | [] => (fs, [])
  | old :: rest =>
    let st := renameStep errs fs i old
    let r := renameLoop errs st.1 (i + 1) rest
    (r.1, st.2 :: r.2)

/-- Embeds `rename_images_by_age()` (lines 5-42 of
`src/pictures/rename_by_age.py`): glob, early return when nothing matched,
candidate filtering, early return when no candidate remains, stable
newest-first sort, the rename loop, and the final summary line reporting
`len(file_info)`. -/
def rename_images_by_age (errs : Nat → Option String) (fs : List FileEntry) :
    List FileEntry × List Msg :=
  if (jpgFiles fs).isEmpty then
    (fs, [Msg.noJpgFiles])
  else if (fileInfo fs).isEmpty then
    (fs, [Msg.nothingToRename])
  else
    let r := renameLoop errs fs 0 ((rankedCandidates fs).map FileEntry.name)
    (r.1, r.2 ++ [Msg.summary (fileInfo fs).length])

/-- Directory state after the first `k` iterations of the rename loop. -/
def stateAt (errs : Nat → Option String) (fs : List FileEntry) (i : Nat)
    (olds : List String) (k : Nat) : List FileEntry :=
  (renameLoop errs fs i (olds.take k)).1

/-- Content tokens of a directory, in listing order; renaming permutes
names over contents, so a run that overwrites nothing preserves this list
exactly. -/
def contents (fs : List FileEntry) : List Nat :=
  fs.map FileEntry.content

/-- Distinct-names relation on directory entries (a real directory never
holds two entries with the same name). -/
def nameNe (a b : FileEntry) : Prop := a.name ≠ b.name

/-- Distinct-timestamps relation on directory entries. -/
def mtimeNe (a b : FileEntry) : Prop := a.mtime ≠ b.mtime

instance : DecidableRel nameNe := fun a b =>
  inferInstanceAs (Decidable (a.name ≠ b.name))

instance : DecidableRel mtimeNe := fun a b =>
  inferInstanceAs (Decidable (a.mtime ≠ b.mtime))

theorem nameNe_symm : ∀ {a b : FileEntry}, nameNe a b → nameNe b a := by
  intro a b h
  exact fun hx => h hx.symm

theorem mtimeNe_symm : ∀ {a b : FileEntry}, mtimeNe a b → mtimeNe b a := by
  intro a b h
  exact fun hx => h hx.symm

theorem mem_globFilter {fs : List FileEntry} {suf : String} {e : FileEntry} :
    e ∈ globFilter fs suf ↔
      e ∈ fs ∧ strStartsWith e.name "." = false ∧ strEndsWith e.name suf = true := by
  simp [globFilter, List.mem_filter]

theorem mem_jpgFiles {fs : List FileEntry} {e : FileEntry} :
    e ∈ jpgFiles fs ↔
      e ∈ fs ∧ strStartsWith e.name "." = false ∧
        (strEndsWith e.name ".jpg" = true ∨ strEndsWith e.name ".JPG" = true ∨
         strEndsWith e.name ".jpeg" = true ∨ strEndsWith e.name ".JPEG" = true) := by
  simp only [jpgFiles, List.mem_append, mem_globFilter]
  constructor
  · rintro (((⟨h1, h2, h3⟩ | ⟨h1, h2, h3⟩) | ⟨h1, h2, h3⟩) | ⟨h1, h2, h3⟩) <;>
      exact ⟨h1, h2, by tauto⟩
  · rintro ⟨h1, h2, h3 | h3 | h3 | h3⟩ <;> tauto

theorem mem_fileInfo {fs : List FileEntry} {e : FileEntry} :
    e ∈ fileInfo fs ↔
      e ∈ fs ∧ strStartsWith e.name "." = false ∧
        (strEndsWith e.name ".jpg" = true ∨ strEndsWith e.name ".JPG" = true ∨
         strEndsWith e.name ".jpeg" = true ∨ strEndsWith e.name ".JPEG" = true) ∧
        strStartsWith e.name "0" = false := by
  simp only [fileInfo, List.mem_filter, mem_jpgFiles, Bool.not_eq_eq_eq_not, Bool.not_true]
  tauto

theorem rankedCandidates_perm (fs : List FileEntry) :
    List.Perm (rankedCandidates fs) (fileInfo fs) :=
  List.perm_insertionSort _ _

theorem mem_rankedCandidates {fs : List FileEntry} {e : FileEntry} :
    e ∈ rankedCandidates fs ↔ e ∈ fileInfo fs :=
  (rankedCandidates_perm fs).mem_iff

theorem ends_conflict {s p q : String} (hp : strEndsWith s p = true)
    (hq : strEndsWith s q = true) (h1 : p.data.isSuffixOf q.data = false)
    (h2 : q.data.isSuffixOf p.data = false) : False := by
  rw [strEndsWith_iff] at hp hq
  rcases Nat.le_total p.data.length q.data.length with hle | hle
  · have hs := List.suffix_of_suffix_length_le hp hq hle
    rw [← List.isSuffixOf_iff_suffix] at hs
    rw [h1] at hs
    exact Bool.false_ne_true hs
  · have hs := List.suffix_of_suffix_length_le hq hp hle
    rw [← List.isSuffixOf_iff_suffix] at hs
    rw [h2] at hs
    exact Bool.false_ne_true hs

theorem globFilter_cross {fs gs : List FileEntry} {p q : String}
    (h1 : p.data.isSuffixOf q.data = false) (h2 : q.data.isSuffixOf p.data = false) :
    ∀ a ∈ globFilter fs p, ∀ b ∈ globFilter gs q, nameNe a b := by
  intro a ha b hb
  have hpa := (mem_globFilter.mp ha).2.2
  have hqb := (mem_globFilter.mp hb).2.2
  intro hab
  rw [hab] at hpa
  exact ends_conflict hpa hqb h1 h2

theorem globFilter_pairwise {fs : List FileEntry} {suf : String}
    (h : fs.Pairwise nameNe) : (globFilter fs suf).Pairwise nameNe :=
  List.Pairwise.sublist (List.filter_sublist fs) h

theorem jpgFiles_pairwise {fs : List FileEntry} (h : fs.Pairwise nameNe) :
    (jpgFiles fs).Pairwise nameNe := by
  have g1 := @globFilter_pairwise fs ".jpg" h
  have g2 := @globFilter_pairwise fs ".JPG" h
  have g3 := @globFilter_pairwise fs ".jpeg" h
  have g4 := @globFilter_pairwise fs ".JPEG" h
  rw [jpgFiles]
  rw [List.pairwise_append]
  refine ⟨?_, ?_, ?_⟩
  · rw [List.pairwise_append]
    refine ⟨?_, ?_, ?_⟩
    · rw [List.pairwise_append]
      exact ⟨g1, g2, globFilter_cross (by rfl) (by rfl)⟩
    · exact g3
    · intro a ha b hb
      rcases List.mem_append.mp ha with ha | ha
      · exact globFilter_cross (by rfl) (by rfl) a ha b hb
      · exact globFilter_cross (by rfl) (by rfl) a ha b hb
  · exact g4
  · intro a ha b hb
    rcases List.mem_append.mp ha with ha | ha
    · rcases List.mem_append.mp ha with ha | ha
      · exact globFilter_cross (by rfl) (by rfl) a ha b hb
      · exact globFilter_cross (by rfl) (by rfl) a ha b hb
    · exact globFilter_cross (by rfl) (by rfl) a ha b hb

theorem fileInfo_pairwise {fs : List FileEntry} (h : fs.Pairwise nameNe) :
    (fileInfo fs).Pairwise nameNe :=
  List.Pairwise.sublist (List.filter_sublist _) (jpgFiles_pairwise h)

theorem rankedCandidates_pairwise {fs : List FileEntry} (h : fs.Pairwise nameNe) :
    (rankedCandidates fs).Pairwise nameNe :=
  ((rankedCandidates_perm fs).pairwise_iff (fun hx => nameNe_symm hx)).mpr
    (fileInfo_pairwise h)

theorem fileInfo_mem_fs {fs : List FileEntry} {e : FileEntry}
    (h : e ∈ fileInfo fs) : e ∈ fs :=
  (mem_fileInfo.mp h).1

theorem rankedCandidates_mem_fs {fs : List FileEntry} {e : FileEntry}
    (h : e ∈ rankedCandidates fs) : e ∈ fs :=
  fileInfo_mem_fs (mem_rankedCandidates.mp h)

instance : IsTotal FileEntry (fun a b => b.mtime ≤ a.mtime) :=
  ⟨fun a b => Nat.le_total b.mtime a.mtime⟩

instance : IsTrans FileEntry (fun a b => b.mtime ≤ a.mtime) :=
  ⟨fun _ _ _ hab hbc => le_trans hbc hab⟩

theorem rankedCandidates_sorted (fs : List FileEntry) :
    (rankedCandidates fs).Pairwise (fun a b => b.mtime ≤ a.mtime) :=
  List.sorted_insertionSort _ _

/-- Specification helper: the entry `e` as it looks after the first `k`
ranked candidates (the list `c`) have been renamed — candidates of rank
below `k` bear their target name, everything else is untouched. -/
def applyRen (c : List FileEntry) (k : Nat) (e : FileEntry) : FileEntry :=
  if e ∈ c ∧ List.indexOf e c < k then
    { e with name := targetName (List.indexOf e c) }
  else e

theorem name_inj_on {l : List FileEntry} (h : l.Pairwise nameNe) :
    ∀ {a b : FileEntry}, a ∈ l → b ∈ l → a.name = b.name → a = b := by
  induction l with
  | nil => intro a b ha; simp at ha
  | cons x t ih =>
    rw [List.pairwise_cons] at h
    intro a b ha hb hab
    rcases List.mem_cons.mp ha with ha | ha <;>
      rcases List.mem_cons.mp hb with hb | hb
    · rw [ha, hb]
    · exact absurd (ha ▸ hab) (h.1 b hb)
    · exact absurd (hb ▸ hab.symm) (h.1 a ha)
    · exact ih h.2 ha hb hab

theorem renameLoop_msgs_length (errs : Nat → Option String) :
    ∀ (olds : List String) (fs : List FileEntry) (i : Nat),
      ((renameLoop errs fs i olds).2).length = olds.length := by
  intro olds
  induction olds with
  | nil => intro fs i; simp [renameLoop]
  | cons a rest ih =>
    intro fs i
    simp [renameLoop, ih]

theorem renameFile_contents {fs : List FileEntry} {old new : String}
    (h : new ∉ fs.map FileEntry.name) :
    contents (renameFile fs old new) = contents fs := by
  unfold renameFile contents
  have hfilter : fs.filter (fun e => !(e.name == new)) = fs := by
    rw [List.filter_eq_self]
    intro e he
    simp only [Bool.not_eq_eq_eq_not, Bool.not_true, beq_eq_false_iff_ne, ne_eq]
    intro heq
    exact h (heq ▸ List.mem_map_of_mem FileEntry.name he)
  rw [hfilter, List.map_map]
  apply List.map_congr_left
  intro e _
  by_cases hname : e.name = old <;> simp [hname]

theorem renameStep_contents (errs : Nat → Option String) (fs : List FileEntry)
    (i : Nat) (old : String) :
    contents (renameStep errs fs i old).1 = contents fs := by
  unfold renameStep
  by_cases h : targetName i ∈ fs.map FileEntry.name
  · simp [h]
  · simp only [h, if_false]
    cases errs i with
    | some msg => simp
    | none =>
      by_cases h2 : old ∈ fs.map FileEntry.name
      · simp [h2, renameFile_contents h]
      · simp [h2]

theorem renameLoop_contents (errs : Nat → Option String) :
    ∀ (olds : List String) (fs : List FileEntry) (i : Nat),
      contents (renameLoop errs fs i olds).1 = contents fs := by
  intro olds
  induction olds with
  | nil => intro fs i; simp [renameLoop]
  | cons a rest ih =>
    intro fs i
    show contents (renameLoop errs (renameStep errs fs i a).1 (i + 1) rest).1 = _
    rw [ih, renameStep_contents]

theorem rename_images_by_age_contents (errs : Nat → Option String)
    (fs : List FileEntry) :
    contents (rename_images_by_age errs fs).1 = contents fs := by
  unfold rename_images_by_age
  by_cases h1 : (jpgFiles fs).isEmpty
  · simp [h1]
  · by_cases h2 : (fileInfo fs).isEmpty
    · simp [h1, h2]
    · simp only [h1, h2, Bool.false_eq_true, if_false]
      exact renameLoop_contents errs _ fs 0

theorem stateAt_zero (errs : Nat → Option String) (fs : List FileEntry)
    (i : Nat) (olds : List String) : stateAt errs fs i olds 0 = fs := rfl

theorem stateAt_cons (errs : Nat → Option String) (fs : List FileEntry)
    (i : Nat) (a : String) (rest : List String) (k : Nat) :
    stateAt errs fs i (a :: rest) (k + 1)
      = stateAt errs (renameStep errs fs i a).1 (i + 1) rest k := by
  simp [stateAt, List.take, renameLoop]

theorem renameLoop_step (errs : Nat → Option String) :
    ∀ (olds : List String) (fs : List FileEntry) (i k : Nat) (h : k < olds.length),
      stateAt errs fs i olds (k + 1)
          = (renameStep errs (stateAt errs fs i olds k) (i + k) (olds.get ⟨k, h⟩)).1
        ∧ ((renameLoop errs fs i olds).2)[k]?
          = some (renameStep errs (stateAt errs fs i olds k) (i + k) (olds.get ⟨k, h⟩)).2 := by
  intro olds
  induction olds with
  | nil => intro fs i k h; simp at h
  | cons a rest ih =>
    intro fs i k h
    cases k with
    | zero =>
      constructor
      · rw [stateAt_cons, stateAt_zero, stateAt_zero]
        rfl
      · show ((renameStep errs fs i a).2 :: (renameLoop errs _ (i + 1) rest).2)[0]? = _
        rw [stateAt_zero]
        simp
    | succ k =>
      have h' : k < rest.length := by simpa using h
      obtain ⟨ih1, ih2⟩ := ih (renameStep errs fs i a).1 (i + 1) k h'
      have hidx : i + (k + 1) = i + 1 + k := by omega
      constructor
      · rw [stateAt_cons, stateAt_cons, hidx]
        exact ih1
      · show ((renameStep errs fs i a).2 :: (renameLoop errs _ (i + 1) rest).2)[k + 1]? = _
        rw [List.getElem?_cons_succ, stateAt_cons, hidx]
        exact ih2

theorem renameLoop_cons (errs : Nat → Option String) (fs : List FileEntry)
    (i : Nat) (old : String) (rest : List String) :
    renameLoop errs fs i (old :: rest)
      = ((renameLoop errs (renameStep errs fs i old).1 (i + 1) rest).1,
         (renameStep errs fs i old).2
           :: (renameLoop errs (renameStep errs fs i old).1 (i + 1) rest).2) := rfl

theorem renameLoop_inv (fs cs : List FileEntry)
    (hfs : fs.Pairwise nameNe)
    (hsub : ∀ e, e ∈ cs → e ∈ fs)
    (hcnd : cs.Pairwise nameNe)
    (htgt : ∀ j, j < cs.length → targetName j ∉ fs.map FileEntry.name) :
    ∀ (d : List FileEntry) (k : Nat), cs.drop k = d →
      (renameLoop (fun _ => none) (fs.map (applyRen cs k)) k (d.map FileEntry.name)).1
        = fs.map (applyRen cs cs.length) := by
  have hnodup : cs.Nodup :=
    hcnd.imp (fun hab he => hab (congrArg FileEntry.name he))
  intro d
  induction d generalizing fs with
  | nil =>
    intro k hk
    have hlen : cs.length ≤ k := List.drop_eq_nil_iff.mp hk
    simp only [List.map_nil, renameLoop]
    apply List.map_congr_left
    intro e _
    unfold applyRen
    by_cases hec : e ∈ cs
    · have hidx : List.indexOf e cs < cs.length := List.indexOf_lt_length.mpr hec
      rw [if_pos ⟨hec, Nat.lt_of_lt_of_le hidx hlen⟩, if_pos ⟨hec, hidx⟩]
    · rw [if_neg (fun h => hec h.1), if_neg (fun h => hec h.1)]
  | cons a d' ih =>
    intro k hk
    have hklen : k < cs.length := by
      have hlen := congrArg List.length hk
      rw [List.length_drop] at hlen
      simp only [List.length_cons] at hlen
      omega
    have hcons := (List.drop_eq_getElem_cons hklen).symm.trans hk
    rw [List.cons.injEq] at hcons
    obtain ⟨hcke, hd'⟩ := hcons
    have hac : a ∈ cs := hcke ▸ List.getElem_mem hklen
    have hafs : a ∈ fs := hsub a hac
    have hidxa : List.indexOf a cs = k := by
      have h0 := List.indexOf_getElem hnodup k hklen
      rw [hcke] at h0
      exact h0
    set S := fs.map (applyRen cs k) with hS
    have htgtS : targetName k ∉ S.map FileEntry.name := by
      rw [hS, List.map_map]
      intro hmem
      obtain ⟨e, he, heq⟩ := List.mem_map.mp hmem
      simp only [Function.comp] at heq
      unfold applyRen at heq
      by_cases hec : e ∈ cs ∧ List.indexOf e cs < k
      · rw [if_pos hec] at heq
        simp only at heq
        have := targetName_inj heq
        omega
      · rw [if_neg hec] at heq
        exact htgt k hklen (heq ▸ List.mem_map_of_mem FileEntry.name he)
    have hak : applyRen cs k a = a := by
      unfold applyRen
      rw [if_neg]
      intro hcon
      rw [hidxa] at hcon
      exact Nat.lt_irrefl k hcon.2
    have haS : a.name ∈ S.map FileEntry.name := by
      rw [hS, List.map_map]
      refine List.mem_map.mpr ⟨a, hafs, ?_⟩
      simp [hak]
    have hstep : renameStep (fun _ => none) S k a.name
        = (renameFile S a.name (targetName k), Msg.renamed a.name (targetName k)) := by
      unfold renameStep
      rw [if_neg htgtS]
      simp only
      rw [if_pos haS]
    have hren : renameFile S a.name (targetName k) = fs.map (applyRen cs (k + 1)) := by
      unfold renameFile
      have hfilter : S.filter (fun e => !(e.name == targetName k)) = S := by
        rw [List.filter_eq_self]
        intro x hx
        simp only [Bool.not_eq_eq_eq_not, Bool.not_true, beq_eq_false_iff_ne, ne_eq]
        intro hxe
        exact htgtS (hxe ▸ List.mem_map_of_mem FileEntry.name hx)
      rw [hfilter, hS, List.map_map]
      apply List.map_congr_left
      intro e he
      simp only [Function.comp]
      by_cases hec : e ∈ cs
      · have hidx : List.indexOf e cs < cs.length := List.indexOf_lt_length.mpr hec
        by_cases hlt : List.indexOf e cs < k
        · have h1 : applyRen cs k e = { e with name := targetName (List.indexOf e cs) } := by
            unfold applyRen
            rw [if_pos ⟨hec, hlt⟩]
          have h2 : applyRen cs (k + 1) e
              = { e with name := targetName (List.indexOf e cs) } := by
            unfold applyRen
            rw [if_pos ⟨hec, by omega⟩]
          rw [h1, h2]
          have hne : targetName (List.indexOf e cs) ≠ a.name := by
            intro hcon
            exact htgt (List.indexOf e cs) (by omega)
              (hcon ▸ List.mem_map_of_mem FileEntry.name hafs)
          rw [if_neg hne]
        · by_cases hea : e = a
          · rw [hea, hak, if_pos rfl]
            unfold applyRen
            rw [if_pos ⟨hac, by omega⟩, hidxa]
          · have h1 : applyRen cs k e = e := by
              unfold applyRen
              rw [if_neg (fun h => hlt h.2)]
            rw [h1]
            have hne : e.name ≠ a.name := fun h => hea (name_inj_on hfs he hafs h)
            rw [if_neg hne]
            have hidxk : List.indexOf e cs ≠ k := by
              intro hcon
              apply hea
              have h4 : cs[List.indexOf e cs]? = some e := by
                rw [List.getElem?_eq_getElem hidx, List.getElem_indexOf hidx]
              rw [hcon] at h4
              have h5 : cs[k]? = some a := by
                rw [List.getElem?_eq_getElem hklen, hcke]
              rw [h4] at h5
              exact Option.some.inj h5
            unfold applyRen
            rw [if_neg (fun h => (by omega : ¬ List.indexOf e cs < k + 1) h.2)]
      · have h1 : applyRen cs k e = e := by
          unfold applyRen
          rw [if_neg (fun h => hec h.1)]
        rw [h1]
        have hea : e ≠ a := fun h => hec (h ▸ hac)
        have hne : e.name ≠ a.name := fun h => hea (name_inj_on hfs he hafs h)
        rw [if_neg hne]
        unfold applyRen
        rw [if_neg (fun h => hec h.1)]
    have hstate : (renameStep (fun _ => none) S k a.name).1
        = fs.map (applyRen cs (k + 1)) := by
      rw [hstep]
      exact hren
    calc (renameLoop (fun _ => none) S k ((a :: d').map FileEntry.name)).1
        = (renameLoop (fun _ => none) (renameStep (fun _ => none) S k a.name).1
            (k + 1) (d'.map FileEntry.name)).1 := rfl
      _ = (renameLoop (fun _ => none) (fs.map (applyRen cs (k + 1)))
            (k + 1) (d'.map FileEntry.name)).1 := by rw [hstate]
      _ = fs.map (applyRen cs cs.length) := ih fs hfs hsub htgt (k + 1) hd'

theorem jpgFiles_ne_nil_of_fileInfo {fs : List FileEntry} (hne : fileInfo fs ≠ []) :
    jpgFiles fs ≠ [] := by
  intro h
  apply hne
  rw [fileInfo, h]
  rfl

theorem map_applyRen_zero (fs cs : List FileEntry) :
    fs.map (applyRen cs 0) = fs := by
  have h : ∀ e ∈ fs, applyRen cs 0 e = id e := by
    intro e _
    unfold applyRen
    rw [if_neg (fun h => Nat.not_lt_zero _ h.2)]
    rfl
  rw [List.map_congr_left h, List.map_id]

theorem rename_run_eq (fs : List FileEntry)
    (hfs : fs.Pairwise nameNe)
    (htgt : ∀ j, j < (fileInfo fs).length → targetName j ∉ fs.map FileEntry.name)
    (hne : fileInfo fs ≠ []) :
    (rename_images_by_age (fun _ => none) fs).1
      = fs.map (applyRen (rankedCandidates fs) (rankedCandidates fs).length) := by
  have hlen : (rankedCandidates fs).length = (fileInfo fs).length :=
    (rankedCandidates_perm fs).length_eq
  have key := renameLoop_inv fs (rankedCandidates fs) hfs
    (fun e he => rankedCandidates_mem_fs he)
    (rankedCandidates_pairwise hfs)
    (fun j hj => htgt j (by omega))
    (rankedCandidates fs) 0 (List.drop_zero _)
  rw [map_applyRen_zero] at key
  have hjpg : ¬ (jpgFiles fs).isEmpty = true := by
    rw [List.isEmpty_iff]
    exact jpgFiles_ne_nil_of_fileInfo hne
  have hfi : ¬ (fileInfo fs).isEmpty = true := by
    rw [List.isEmpty_iff]
    exact hne
  unfold rename_images_by_age
  rw [if_neg hjpg, if_neg hfi]
  exact key

theorem rankedCandidates_mtimeNe {fs : List FileEntry}
    (hmt : (fileInfo fs).Pairwise mtimeNe) :
    (rankedCandidates fs).Pairwise mtimeNe :=
  ((rankedCandidates_perm fs).pairwise_iff (fun hx => mtimeNe_symm hx)).mpr hmt

theorem rankedCandidates_strict {fs : List FileEntry}
    (hmt : (fileInfo fs).Pairwise mtimeNe) :
    ∀ k k' (hk : k < (rankedCandidates fs).length)
      (hk' : k' < (rankedCandidates fs).length), k < k' →
      ((rankedCandidates fs).get ⟨k', hk'⟩).mtime
        < ((rankedCandidates fs).get ⟨k, hk⟩).mtime := by
  have hsorted := rankedCandidates_sorted fs
  have hneq := rankedCandidates_mtimeNe hmt
  intro k k' hk hk' hlt
  have h1 := List.pairwise_iff_getElem.mp hsorted k k' hk hk' hlt
  have h2 := List.pairwise_iff_getElem.mp hneq k k' hk hk' hlt
  simp only [List.get_eq_getElem]
  unfold mtimeNe at h2
  omega

theorem get_mem' {l : List FileEntry} {k : Nat} (hk : k < l.length) :
    l.get ⟨k, hk⟩ ∈ l := by
  rw [List.get_eq_getElem]
  exact List.getElem_mem hk

/-- C1: in a directory whose entries have pairwise-distinct names, whose
candidate files have pairwise-distinct modification times, and in which no
file bearing one of this run's target names (`NNNN.jpg`) already exists,
`rename_images_by_age` renames the candidate of recency rank `k` (position
`k` in the newest-first order) to the rank-`k` target name; ranks increase
strictly as timestamps decrease, and the candidate with the most recent
timestamp ends up named `0000.jpg`. -/
theorem c1_rename_ranks (fs : List FileEntry)
    (hfs : fs.Pairwise nameNe)
    (hmt : (fileInfo fs).Pairwise mtimeNe)
    (htgt : ∀ j, j < (fileInfo fs).length → targetName j ∉ fs.map FileEntry.name) :
    (∀ k (hk : k < (rankedCandidates fs).length),
        { (rankedCandidates fs).get ⟨k, hk⟩ with name := targetName k }
          ∈ (rename_images_by_age (fun _ => none) fs).1)
    ∧ (∀ k k' (hk : k < (rankedCandidates fs).length)
          (hk' : k' < (rankedCandidates fs).length),
        ((rankedCandidates fs).get ⟨k', hk'⟩).mtime
            < ((rankedCandidates fs).get ⟨k, hk⟩).mtime → k < k')
    ∧ (∀ e, e ∈ fileInfo fs →
        (∀ e', e' ∈ fileInfo fs → e' ≠ e → e'.mtime < e.mtime) →
        { e with name := "0000.jpg" } ∈ (rename_images_by_age (fun _ => none) fs).1) := by
  have hnodup : (rankedCandidates fs).Nodup :=
    (rankedCandidates_pairwise hfs).imp (fun hab he => hab (congrArg FileEntry.name he))
  have hpart1 : ∀ k (hk : k < (rankedCandidates fs).length),
      { (rankedCandidates fs).get ⟨k, hk⟩ with name := targetName k }
        ∈ (rename_images_by_age (fun _ => none) fs).1 := by
    intro k hk
    have hne : fileInfo fs ≠ [] := by
      intro h0
      have hl : (rankedCandidates fs).length = (fileInfo fs).length :=
        (rankedCandidates_perm fs).length_eq
      rw [h0, List.length_nil] at hl
      omega
    rw [rename_run_eq fs hfs htgt hne]
    refine List.mem_map.mpr
      ⟨(rankedCandidates fs).get ⟨k, hk⟩, rankedCandidates_mem_fs (get_mem' hk), ?_⟩
    have hidx : List.indexOf ((rankedCandidates fs).get ⟨k, hk⟩) (rankedCandidates fs)
        = k := by
      rw [List.get_eq_getElem]
      exact List.indexOf_getElem hnodup k hk
    unfold applyRen
    rw [if_pos ⟨get_mem' hk, by rw [hidx]; exact hk⟩, hidx]
  have hpart2 : ∀ k k' (hk : k < (rankedCandidates fs).length)
      (hk' : k' < (rankedCandidates fs).length),
      ((rankedCandidates fs).get ⟨k', hk'⟩).mtime
          < ((rankedCandidates fs).get ⟨k, hk⟩).mtime → k < k' := by
    intro k k' hk hk' hmtlt
    rcases Nat.lt_trichotomy k k' with h | h | h
    · exact h
    · subst h
      omega
    · have := rankedCandidates_strict hmt k' k hk' hk h
      omega
  refine ⟨hpart1, hpart2, ?_⟩
  intro e he hmin
  obtain ⟨⟨j, hj⟩, hget⟩ := List.mem_iff_get.mp (mem_rankedCandidates.mpr he)
  have hlen0 : 0 < (rankedCandidates fs).length := by omega
  have hj0 : j = 0 := by
    by_contra hj0
    have hstrict := rankedCandidates_strict hmt 0 j hlen0 hj (by omega)
    rw [hget] at hstrict
    by_cases heq : (rankedCandidates fs).get ⟨0, hlen0⟩ = e
    · rw [heq] at hstrict
      omega
    · have := hmin _ (mem_rankedCandidates.mp (get_mem' hlen0)) heq
      omega
  subst hj0
  have hmem := hpart1 0 hj
  rw [hget] at hmem
  have ht0 : targetName 0 = "0000.jpg" := by decide
  rw [ht0] at hmem
  exact hmem

/-- Witness for C1 on the two-file directory `a.jpg` (newer) and `b.jpg`
(older): the newest file ends up named `0000.jpg`. -/
theorem c1_rename_ranks_witness :
    (⟨"0000.jpg", 5, 10⟩ : FileEntry) ∈ (rename_images_by_age (fun _ => none)
        [⟨"a.jpg", 5, 10⟩, ⟨"b.jpg", 3, 11⟩]).1 := by
  have h := c1_rename_ranks [⟨"a.jpg", 5, 10⟩, ⟨"b.jpg", 3, 11⟩]
    (by decide) (by decide) (by decide)
  exact h.2.2 ⟨"a.jpg", 5, 10⟩ (by decide) (by decide)

theorem run_noop_of_fileInfo_nil (errs : Nat → Option String) (fs : List FileEntry)
    (h : fileInfo fs = []) :
    (rename_images_by_age errs fs).1 = fs
    ∧ ((rename_images_by_age errs fs).2 = [Msg.noJpgFiles]
        ∨ (rename_images_by_age errs fs).2 = [Msg.nothingToRename]) := by
  unfold rename_images_by_age
  by_cases h1 : (jpgFiles fs).isEmpty = true
  · rw [if_pos h1]
    exact ⟨rfl, Or.inl rfl⟩
  · rw [if_neg h1, if_pos (by rw [List.isEmpty_iff]; exact h)]
    exact ⟨rfl, Or.inr rfl⟩

/-- C2: `rename_images_by_age` never overwrites an existing file: the list
of content tokens of the directory is preserved exactly by every run (first
conjunct), and whenever the computed target name already exists at a loop
step, that step leaves the directory unchanged and emits a warning naming
the existing target and the skipped source file (second conjunct). -/
theorem c2_no_overwrite :
    (∀ (errs : Nat → Option String) (fs : List FileEntry),
        contents (rename_images_by_age errs fs).1 = contents fs)
    ∧ (∀ (errs : Nat → Option String) (fs : List FileEntry) (i : Nat)
          (olds : List String) (k : Nat) (h : k < olds.length),
        targetName (i + k) ∈ (stateAt errs fs i olds k).map FileEntry.name →
          stateAt errs fs i olds (k + 1) = stateAt errs fs i olds k
            ∧ ((renameLoop errs fs i olds).2)[k]?
                = some (Msg.warnExists (targetName (i + k)) (olds.get ⟨k, h⟩))) := by
  constructor
  · exact rename_images_by_age_contents
  · intro errs fs i olds k h hex
    obtain ⟨h1, h2⟩ := renameLoop_step errs olds fs i k h
    have hstep : renameStep errs (stateAt errs fs i olds k) (i + k) (olds.get ⟨k, h⟩)
        = (stateAt errs fs i olds k,
           Msg.warnExists (targetName (i + k)) (olds.get ⟨k, h⟩)) := by
      unfold renameStep
      rw [if_pos hex]
    exact ⟨by rw [h1, hstep], by rw [h2, hstep]⟩

/-- Witness for C2: renaming `a.jpg` in a directory that already holds
`0000.jpg` preserves all contents and skips the colliding rename. -/
theorem c2_no_overwrite_witness :
    contents (rename_images_by_age (fun _ => none)
        [⟨"a.jpg", 1, 0⟩, ⟨"0000.jpg", 2, 1⟩]).1
      = contents [⟨"a.jpg", 1, 0⟩, ⟨"0000.jpg", 2, 1⟩]
    ∧ stateAt (fun _ => none) [⟨"a.jpg", 1, 0⟩, ⟨"0000.jpg", 2, 1⟩] 0 ["a.jpg"] 1
        = stateAt (fun _ => none) [⟨"a.jpg", 1, 0⟩, ⟨"0000.jpg", 2, 1⟩] 0 ["a.jpg"] 0 := by
  refine ⟨c2_no_overwrite.1 _ _, ?_⟩
  exact (c2_no_overwrite.2 (fun _ => none) [⟨"a.jpg", 1, 0⟩, ⟨"0000.jpg", 2, 1⟩]
    0 ["a.jpg"] 0 (by decide) (by decide)).1

/-- C5: when the candidate set is empty (no glob match at all, or every
matching file already starts with `'0'`), the run performs no filesystem
mutation and only reports that there is nothing to do. -/
theorem c5_empty_candidates (errs : Nat → Option String) (fs : List FileEntry)
    (h : fileInfo fs = []) :
    (rename_images_by_age errs fs).1 = fs
    ∧ ((rename_images_by_age errs fs).2 = [Msg.noJpgFiles]
        ∨ (rename_images_by_age errs fs).2 = [Msg.nothingToRename]) :=
  run_noop_of_fileInfo_nil errs fs h

/-- Witness for C5 on the empty directory. -/
theorem c5_empty_candidates_witness :
    (rename_images_by_age (fun _ => none) []).1 = ([] : List FileEntry)
    ∧ ((rename_images_by_age (fun _ => none) []).2 = [Msg.noJpgFiles]
        ∨ (rename_images_by_age (fun _ => none) []).2 = [Msg.nothingToRename]) :=
  c5_empty_candidates (fun _ => none) [] rfl

/-- C6: when the rename attempted at step `k` raises (error oracle says
`some e`) and the target did not already exist, the exception is caught:
the step's message carries the source file name and the error text, the
directory state — including every earlier successful rename — is unchanged
by the step, and the loop still emits one message per candidate
(processing continues). -/
theorem c6_error_handling (errs : Nat → Option String) (fs : List FileEntry)
    (i : Nat) (olds : List String) (k : Nat) (h : k < olds.length)
    (e : String) (herr : errs (i + k) = some e)
    (hex : targetName (i + k) ∉ (stateAt errs fs i olds k).map FileEntry.name) :
    stateAt errs fs i olds (k + 1) = stateAt errs fs i olds k
    ∧ ((renameLoop errs fs i olds).2)[k]?
        = some (Msg.errorRenaming (olds.get ⟨k, h⟩) e)
    ∧ ((renameLoop errs fs i olds).2).length = olds.length := by
  obtain ⟨h1, h2⟩ := renameLoop_step errs olds fs i k h
  have hstep : renameStep errs (stateAt errs fs i olds k) (i + k) (olds.get ⟨k, h⟩)
      = (stateAt errs fs i olds k, Msg.errorRenaming (olds.get ⟨k, h⟩) e) := by
    unfold renameStep
    rw [if_neg hex, herr]
  exact ⟨by rw [h1, hstep], by rw [h2, hstep],
    renameLoop_msgs_length errs olds fs i⟩

/-- Witness for C6: a failing rename of the only candidate is caught and
reported, leaving the directory unchanged. -/
theorem c6_error_handling_witness :
    stateAt (fun _ => some "boom") [⟨"a.jpg", 1, 0⟩] 0 ["a.jpg"] 1
        = stateAt (fun _ => some "boom") [⟨"a.jpg", 1, 0⟩] 0 ["a.jpg"] 0
    ∧ ((renameLoop (fun _ => some "boom") [⟨"a.jpg", 1, 0⟩] 0 ["a.jpg"]).2)[0]?
        = some (Msg.errorRenaming "a.jpg" "boom") := by
  have h := c6_error_handling (fun _ => some "boom") [⟨"a.jpg", 1, 0⟩]
    0 ["a.jpg"] 0 (by decide) "boom" rfl (by decide)
  exact ⟨h.1, h.2.1⟩

/-- C7: for a non-empty candidate set, the final summary message reports
the number of candidates considered, whatever the error oracle did —
skipped and failed renames are counted all the same. -/
theorem c7_summary_count (errs : Nat → Option String) (fs : List FileEntry)
    (h : fileInfo fs ≠ []) :
    ((rename_images_by_age errs fs).2).getLast?
      = some (Msg.summary (fileInfo fs).length) := by
  unfold rename_images_by_age
  have h1 : ¬ (jpgFiles fs).isEmpty = true := by
    rw [List.isEmpty_iff]
    exact jpgFiles_ne_nil_of_fileInfo h
  have h2 : ¬ (fileInfo fs).isEmpty = true := by
    rw [List.isEmpty_iff]
    exact h
  rw [if_neg h1, if_neg h2]
  exact List.getLast?_concat _

/-- Witness for C7: the single candidate's rename fails, yet the summary
still reports one file. -/
theorem c7_summary_count_witness :
    ((rename_images_by_age (fun _ => some "boom") [⟨"a.jpg", 1, 0⟩]).2).getLast?
      = some (Msg.summary (fileInfo [⟨"a.jpg", 1, 0⟩]).length) :=
  c7_summary_count (fun _ => some "boom") [⟨"a.jpg", 1, 0⟩] (by decide)

/-- C8: a file whose name starts with the digit `'0'` is never selected as
a rename source; consequently a run over a directory whose glob-matching
files all start with `'0'` renames nothing at all. -/
theorem c8_idempotence :
    (∀ (fs : List FileEntry) (e : FileEntry),
        strStartsWith e.name "0" = true → e ∉ fileInfo fs)
    ∧ (∀ (errs : Nat → Option String) (fs : List FileEntry),
        (∀ e, e ∈ fs → strStartsWith e.name "." = false →
          (strEndsWith e.name ".jpg" = true ∨ strEndsWith e.name ".JPG" = true ∨
           strEndsWith e.name ".jpeg" = true ∨ strEndsWith e.name ".JPEG" = true) →
          strStartsWith e.name "0" = true) →
        (rename_images_by_age errs fs).1 = fs) := by
  constructor
  · intro fs e h0 hmem
    have h4 := (mem_fileInfo.mp hmem).2.2.2
    rw [h0] at h4
    exact Bool.noConfusion h4
  · intro errs fs hall
    have hfi : fileInfo fs = [] := by
      rw [List.eq_nil_iff_forall_not_mem]
      intro e hmem
      obtain ⟨h1, h2, h3, h4⟩ := mem_fileInfo.mp hmem
      have h0 := hall e h1 h2 h3
      rw [h0] at h4
      exact Bool.noConfusion h4
    exact (run_noop_of_fileInfo_nil errs fs hfi).1

/-- Witness for C8: a directory holding only `0000.jpg` is left untouched
by a second run. -/
theorem c8_idempotence_witness :
    (⟨"0000.jpg", 1, 0⟩ : FileEntry) ∉ fileInfo [(⟨"0000.jpg", 1, 0⟩ : FileEntry)]
    ∧ (rename_images_by_age (fun _ => none) [⟨"0000.jpg", 1, 0⟩]).1
        = [(⟨"0000.jpg", 1, 0⟩ : FileEntry)] := by
  refine ⟨c8_idempotence.1 _ _ (by decide), ?_⟩
  exact c8_idempotence.2 (fun _ => none) [⟨"0000.jpg", 1, 0⟩] (by decide)

/-- Lower-casing of a string, character by character (used only to state
the spec's "case-insensitive" selection claim). -/
def lowerStr (s : String) : String :=
  ⟨s.data.map Char.toLower⟩

/-- Modelled from the spec (for comparison with the code, claim C3): the
spec says an entry is selected iff its name ends case-insensitively in
`.jpg` or `.jpeg` and does not begin with the digit `0`. -/
def specCandidate (s : String) : Bool :=
  (strEndsWith (lowerStr s) ".jpg" || strEndsWith (lowerStr s) ".jpeg")
    && !strStartsWith s "0"

/-- Counterexample to C3 as stated: `a.Jpg` ends case-insensitively in
`.jpg` and does not start with `0`, so the spec's selection predicate
accepts it, yet the code's four case-exact glob patterns do not select it:
a directory consisting of that one file yields an empty candidate set. -/
theorem c3_counterexample :
    specCandidate "a.Jpg" = true
    ∧ fileInfo [⟨"a.Jpg", 1, 0⟩] = [] := by decide

/-- C3 amended: an entry is selected as a candidate iff its name ends in
exactly one of `.jpg`, `.JPG`, `.jpeg`, `.JPEG` (case-exact, matching the
four glob patterns in the source), does not begin with a dot (POSIX glob
never matches hidden files), and does not begin with the digit `0`. -/
theorem c3_selection_amended (fs : List FileEntry) (e : FileEntry) :
    e ∈ fileInfo fs ↔
      e ∈ fs ∧ strStartsWith e.name "." = false ∧
        (strEndsWith e.name ".jpg" = true ∨ strEndsWith e.name ".JPG" = true ∨
         strEndsWith e.name ".jpeg" = true ∨ strEndsWith e.name ".JPEG" = true) ∧
        strStartsWith e.name "0" = false :=
  mem_fileInfo

/-- Environment of one launcher invocation: whether Node.js is available,
whether the required companion `.js` files are present, whether a story
file could be located, the exit status the story subprocess returns, and
whether the try block around the launch raises. -/
structure LaunchEnv where
  nodeAvailable : Bool
  filesPresent : Bool
  storyAvailable : Bool
  subprocessExit : Int
  runRaises : Bool

/-- Embeds the exit behaviour of `main` in `src/run.py` on the run-a-story
path (no `--generate`): each failed precondition calls `sys.exit(1)`; an
exception in the try block around the launch is caught and leads to
`sys.exit(1)`; otherwise `subprocess.call`'s return value is bound to the
local `result` and never read again, `main` returns normally, and the
interpreter exits 0. -/
def runPyMainExit (env : LaunchEnv) : Int :=
  if !env.nodeAvailable then 1
  else if !env.filesPresent then 1
  else if !env.storyAvailable then 1
  else if env.runRaises then 1
  else
    let _result := env.subprocessExit
    0

/-- Embeds the exit behaviour of `main` in `src/play_latest.py`: failed
preconditions call `sys.exit(1)`; after the launch, `subprocess.call`'s
return value is bound to `result` and never used, and even the `except`
branch only prints and returns, so the script exits 0. -/
def playLatestMainExit (env : LaunchEnv) : Int :=
  if !env.nodeAvailable then 1
  else if !env.filesPresent then 1
  else if !env.storyAvailable then 1
  else
    let _result := env.subprocessExit
    0

/-- Counterexample to C4 as stated: with Node present, all companion files
present, a story found and no exception, a subprocess exit status of 7 is
not surfaced — both launchers exit 0, which differs from 7. -/
theorem c4_counterexample :
    runPyMainExit ⟨true, true, true, 7, false⟩ = 0
    ∧ playLatestMainExit ⟨true, true, true, 7, false⟩ = 0
    ∧ (0 : Int) ≠ 7 := by decide

/-- C4 amended: the launchers capture the subprocess's exit status into a
local variable but do not surface it; whenever the launch completes
without raising (and all preconditions held), the launcher's own exit
status is 0 regardless of the subprocess's exit status. -/
theorem c4_exit_status_amended (env : LaunchEnv)
    (hn : env.nodeAvailable = true) (hf : env.filesPresent = true)
    (hs : env.storyAvailable = true) (hr : env.runRaises = false) :
    runPyMainExit env = 0 ∧ playLatestMainExit env = 0 := by
  unfold runPyMainExit playLatestMainExit
  rw [hn, hf, hs, hr]
  exact ⟨rfl, rfl⟩

/-- Witness for the amended C4 at a subprocess exit status of 42. -/
theorem c4_exit_status_amended_witness :
    runPyMainExit ⟨true, true, true, 42, false⟩ = 0
    ∧ playLatestMainExit ⟨true, true, true, 42, false⟩ = 0 :=
  c4_exit_status_amended ⟨true, true, true, 42, false⟩ rfl rfl rfl rfl

/-- Embeds `Path("stories").glob("*.json")` in `src/play_story_choice.py`:
entries of the stories directory whose name ends in `.json`.  Unlike the
`glob` module, `pathlib`'s glob matches hidden dotfiles too, so no
leading-dot exclusion applies here. -/
def jsonStories (dir : List FileEntry) : List FileEntry :=
  dir.filter (fun e => strEndsWith e.name ".json")

/-- Embeds `get_all_stories` (lines 21-32 of `src/play_story_choice.py`):
all story files sorted by modification time, newest first (stable). -/
def get_all_stories (dir : List FileEntry) : List FileEntry :=
  List.insertionSort (fun a b => b.mtime ≤ a.mtime) (jsonStories dir)

/-- Embeds line 75 of `src/play_story_choice.py`:
`available_stories = stories[:-1] if len(stories) > 1 else stories`. -/
def available_stories (stories : List FileEntry) : List FileEntry :=
  if 1 < stories.length then stories.dropLast else stories

theorem get_all_stories_strict {dir : List FileEntry}
    (hmt : (jsonStories dir).Pairwise mtimeNe) :
    ∀ k k' (hk : k < (get_all_stories dir).length)
      (hk' : k' < (get_all_stories dir).length), k < k' →
      ((get_all_stories dir).get ⟨k', hk'⟩).mtime
        < ((get_all_stories dir).get ⟨k, hk⟩).mtime := by
  have hsorted : (get_all_stories dir).Pairwise (fun a b => b.mtime ≤ a.mtime) :=
    List.sorted_insertionSort _ _
  have hperm : List.Perm (get_all_stories dir) (jsonStories dir) :=
    List.perm_insertionSort _ _
  have hneq : (get_all_stories dir).Pairwise mtimeNe :=
    (hperm.pairwise_iff (fun hx => mtimeNe_symm hx)).mpr hmt
  intro k k' hk hk' hlt
  have h1 := List.pairwise_iff_getElem.mp hsorted k k' hk hk' hlt
  have h2 := List.pairwise_iff_getElem.mp hneq k k' hk hk' hlt
  simp only [List.get_eq_getElem]
  unfold mtimeNe at h2
  omega

/-- C9: with pairwise-distinct story timestamps, whenever more than one
story exists the strictly oldest story is excluded from the selectable
list (per `stories[:-1]`), every story that is strictly newer than some
other story remains selectable, and when exactly one story exists it stays
selectable. -/
theorem c9_oldest_story_excluded (dir : List FileEntry)
    (hmt : (jsonStories dir).Pairwise mtimeNe) :
    (1 < (get_all_stories dir).length →
      ∀ s, s ∈ get_all_stories dir →
        (∀ t, t ∈ get_all_stories dir → t ≠ s → s.mtime < t.mtime) →
        s ∉ available_stories (get_all_stories dir))
    ∧ ((get_all_stories dir).length = 1 →
        available_stories (get_all_stories dir) = get_all_stories dir)
    ∧ (∀ t, t ∈ get_all_stories dir →
        (∃ u, u ∈ get_all_stories dir ∧ u.mtime < t.mtime) →
        t ∈ available_stories (get_all_stories dir)) := by
  refine ⟨?_, ?_, ?_⟩
  · intro hlen s hs hmin hmem
    rw [available_stories, if_pos hlen] at hmem
    obtain ⟨⟨j, hj⟩, hget⟩ := List.mem_iff_get.mp hmem
    have hj' : j < (get_all_stories dir).length - 1 := by
      have := List.length_dropLast (get_all_stories dir)
      omega
    have hjlt : j < (get_all_stories dir).length := by omega
    have hget' : (get_all_stories dir).get ⟨j, hjlt⟩ = s := by
      rw [List.get_eq_getElem] at hget ⊢
      rw [← hget]
      exact (List.getElem_dropLast _ j hj).symm
    have hlast : (get_all_stories dir).length - 1 < (get_all_stories dir).length := by
      omega
    have hstrict := get_all_stories_strict hmt j ((get_all_stories dir).length - 1)
      hjlt hlast (by omega)
    rw [hget'] at hstrict
    by_cases heq : (get_all_stories dir).get
        ⟨(get_all_stories dir).length - 1, hlast⟩ = s
    · rw [heq] at hstrict
      omega
    · have := hmin _ (get_mem' hlast) heq
      omega
  · intro hlen
    rw [available_stories, if_neg (by omega)]
  · intro t ht ⟨u, hu, hult⟩
    obtain ⟨⟨j, hj⟩, hgett⟩ := List.mem_iff_get.mp ht
    obtain ⟨⟨ju, hju⟩, hgetu⟩ := List.mem_iff_get.mp hu
    have hjne : j ≠ ju := by
      intro hcon
      have ht' : (get_all_stories dir)[j]? = some t := by
        rw [List.getElem?_eq_getElem hj]
        exact congrArg some (by rw [← hgett, List.get_eq_getElem])
      have hu' : (get_all_stories dir)[ju]? = some u := by
        rw [List.getElem?_eq_getElem hju]
        exact congrArg some (by rw [← hgetu, List.get_eq_getElem])
      rw [hcon, hu'] at ht'
      have hut : u = t := Option.some.inj ht'
      rw [hut] at hult
      omega
    have hlen2 : 1 < (get_all_stories dir).length := by omega
    have hjlast : j ≠ (get_all_stories dir).length - 1 := by
      intro hcon
      have hjult : ju < j := by omega
      have hstrict := get_all_stories_strict hmt ju j hju hj hjult
      rw [hgett, hgetu] at hstrict
      omega
    rw [available_stories, if_pos hlen2]
    have hjdl : j < ((get_all_stories dir).dropLast).length := by
      rw [List.length_dropLast]
      omega
    refine List.mem_iff_get.mpr ⟨⟨j, hjdl⟩, ?_⟩
    rw [List.get_eq_getElem, List.getElem_dropLast]
    rw [List.get_eq_getElem] at hgett
    exact hgett

/-- Witness for C9 on two stories: the older one is not selectable, the
newer one is. -/
theorem c9_oldest_story_excluded_witness :
    (⟨"b.json", 3, 1⟩ : FileEntry)
        ∉ available_stories (get_all_stories [⟨"a.json", 5, 0⟩, ⟨"b.json", 3, 1⟩])
    ∧ (⟨"a.json", 5, 0⟩ : FileEntry)
        ∈ available_stories (get_all_stories [⟨"a.json", 5, 0⟩, ⟨"b.json", 3, 1⟩]) := by
  have h := c9_oldest_story_excluded [⟨"a.json", 5, 0⟩, ⟨"b.json", 3, 1⟩] (by decide)
  constructor
  · exact h.1 (by decide) ⟨"b.json", 3, 1⟩ (by decide) (by decide)
  · exact h.2.2 ⟨"a.json", 5, 0⟩ (by decide)
      ⟨⟨"b.json", 3, 1⟩, by decide, by decide⟩

theorem string_data_inj {s t : String} (h : s.data = t.data) : s = t := by
  cases s with
  | mk ds => cases t with
    | mk dt =>
      simp only at h
      rw [h]

theorem strStartsWith_eq_false_iff (s p : String) :
    strStartsWith s p = false ↔ ¬ p.data <+: s.data := by
  rw [← strStartsWith_iff]
  cases strStartsWith s p <;> simp

theorem mk_name_ends_jpg (x : String) :
    strEndsWith (x ++ ".jpg") ".jpg" = true := by
  rw [strEndsWith_iff, String.data_append]
  exact List.suffix_append _ _

theorem ends_jpg_excl {s : String} (h : strEndsWith s ".jpg" = true) :
    strEndsWith s ".JPG" = false ∧ strEndsWith s ".jpeg" = false
      ∧ strEndsWith s ".JPEG" = false := by
  refine ⟨?_, ?_, ?_⟩
  · cases hq : strEndsWith s ".JPG"
    · rfl
    · exact (ends_conflict h hq (by rfl) (by rfl)).elim
  · cases hq : strEndsWith s ".jpeg"
    · rfl
    · exact (ends_conflict h hq (by rfl) (by rfl)).elim
  · cases hq : strEndsWith s ".JPEG"
    · rfl
    · exact (ends_conflict h hq (by rfl) (by rfl)).elim

theorem strStartsWith_f_dot (y : String) :
    strStartsWith ("f" ++ y) "." = false := by
  rw [strStartsWith_eq_false_iff, String.data_append]
  intro hcon
  obtain ⟨t, ht⟩ := hcon
  have ht' : '.' :: t = 'f' :: y.data := ht
  injection ht' with h1 h2
  exact absurd h1 (by decide)

theorem strStartsWith_f_zero (y : String) :
    strStartsWith ("f" ++ y) "0" = false := by
  rw [strStartsWith_eq_false_iff, String.data_append]
  intro hcon
  obtain ⟨t, ht⟩ := hcon
  have ht' : '0' :: t = 'f' :: y.data := ht
  injection ht' with h1 h2
  exact absurd h1 (by decide)

/-- A family of directories exercising the renamer at scale: `n` candidate
files `f0000.jpg`, `f0001.jpg`, … named apart from the renamer's own
output namespace, listed newest first (`mtime = n - i`), contents `i`. -/
def mkFiles (n : Nat) : List FileEntry :=
  (List.range n).map (fun i => ⟨"f" ++ fmt04 i ++ ".jpg", n - i, i⟩)

theorem mkFiles_length (n : Nat) : (mkFiles n).length = n := by
  simp [mkFiles]

theorem mkName_inj {i j : Nat}
    (h : "f" ++ fmt04 i ++ ".jpg" = "f" ++ fmt04 j ++ ".jpg") : i = j := by
  apply fmt04_inj
  have hd := congrArg String.data h
  simp only [String.data_append] at hd
  rw [List.append_assoc, List.append_assoc] at hd
  have hd2 := List.append_cancel_left hd
  have hd3 := List.append_cancel_right hd2
  exact string_data_inj hd3

theorem mkFiles_pairwise (n : Nat) : (mkFiles n).Pairwise nameNe := by
  rw [mkFiles, List.pairwise_map]
  apply List.Pairwise.imp ?_ (List.pairwise_lt_range n)
  intro a b hab hcon
  exact absurd (mkName_inj hcon) (by omega)

theorem fileInfo_mkFiles (n : Nat) : fileInfo (mkFiles n) = mkFiles n := by
  have hends : ∀ e ∈ mkFiles n, strEndsWith e.name ".jpg" = true := by
    intro e he
    obtain ⟨i, hi, rfl⟩ := List.mem_map.mp he
    exact mk_name_ends_jpg ("f" ++ fmt04 i)
  have hhidden : ∀ e ∈ mkFiles n, strStartsWith e.name "." = false := by
    intro e he
    obtain ⟨i, hi, rfl⟩ := List.mem_map.mp he
    show strStartsWith ("f" ++ fmt04 i ++ ".jpg") "." = false
    rw [String.append_assoc]
    exact strStartsWith_f_dot _
  have hzero : ∀ e ∈ mkFiles n, strStartsWith e.name "0" = false := by
    intro e he
    obtain ⟨i, hi, rfl⟩ := List.mem_map.mp he
    show strStartsWith ("f" ++ fmt04 i ++ ".jpg") "0" = false
    rw [String.append_assoc]
    exact strStartsWith_f_zero _
  have hjpg : jpgFiles (mkFiles n) = mkFiles n := by
    unfold jpgFiles
    have h1 : globFilter (mkFiles n) ".jpg" = mkFiles n := by
      rw [globFilter, List.filter_eq_self]
      intro e he
      show (!strStartsWith e.name "." && strEndsWith e.name ".jpg") = true
      rw [hhidden e he, hends e he]
      rfl
    have h2 : globFilter (mkFiles n) ".JPG" = [] := by
      rw [globFilter, List.filter_eq_nil_iff]
      intro e he
      show ¬ (!strStartsWith e.name "." && strEndsWith e.name ".JPG") = true
      rw [(ends_jpg_excl (hends e he)).1]
      simp
    have h3 : globFilter (mkFiles n) ".jpeg" = [] := by
      rw [globFilter, List.filter_eq_nil_iff]
      intro e he
      show ¬ (!strStartsWith e.name "." && strEndsWith e.name ".jpeg") = true
      rw [(ends_jpg_excl (hends e he)).2.1]
      simp
    have h4 : globFilter (mkFiles n) ".JPEG" = [] := by
      rw [globFilter, List.filter_eq_nil_iff]
      intro e he
      show ¬ (!strStartsWith e.name "." && strEndsWith e.name ".JPEG") = true
      rw [(ends_jpg_excl (hends e he)).2.2]
      simp
    rw [h1, h2, h3, h4]
    simp
  rw [fileInfo, hjpg, List.filter_eq_self]
  intro e he
  show (!strStartsWith e.name "0") = true
  rw [hzero e he]
  rfl

theorem targetName_ne_mkName (j i : Nat) :
    targetName j ≠ "f" ++ fmt04 i ++ ".jpg" := by
  intro h
  obtain ⟨ch, cs', hdata, hlt⟩ := fmt04_head j
  have hd := congrArg String.data h
  simp only [targetName, String.data_append] at hd
  rw [hdata] at hd
  have hd' : ch :: (cs' ++ ".jpg".data) = 'f' :: ((fmt04 i).data ++ ".jpg".data) := by
    simpa [List.cons_append, List.append_assoc] using hd
  injection hd' with h1 h2
  rw [h1] at hlt
  exact absurd hlt (by decide)

theorem mkFiles_targets (n : Nat) :
    ∀ j, targetName j ∉ (mkFiles n).map FileEntry.name := by
  intro j hmem
  rw [mkFiles, List.map_map] at hmem
  obtain ⟨i, hi, heq⟩ := List.mem_map.mp hmem
  exact targetName_ne_mkName j i heq.symm

theorem strStartsWith_targetName_zero {j : Nat} (hj : j ≤ 999) :
    strStartsWith (targetName j) "0" = true := by
  rw [strStartsWith_iff]
  have h0 := fmt04_startsWith_zero hj
  rw [strStartsWith_iff] at h0
  have hdata : (targetName j).data = (fmt04 j).data ++ ".jpg".data := by
    simp [targetName, String.data_append]
  rw [hdata]
  exact h0.trans (List.prefix_append _ _)

/-- C10: on the 1001-candidate directory `mkFiles 1001`, the run assigns
rank 1000 the target name `1000.jpg`, which does not start with the digit
`'0'`; consequently that output file is selected again as a rename source
by the next run's candidate scan.  The `'0'`-prefix "already renamed"
heuristic only protects target names of rank at most 999, which all start
with `'0'`. -/
theorem c10_rank1000_reselected :
    (∃ e, e ∈ (rename_images_by_age (fun _ => none) (mkFiles 1001)).1
        ∧ e.name = "1000.jpg"
        ∧ e ∈ fileInfo (rename_images_by_age (fun _ => none) (mkFiles 1001)).1)
    ∧ (∀ j, j ≤ 999 → strStartsWith (targetName j) "0" = true) := by
  constructor
  · have hfs := mkFiles_pairwise 1001
    have hfi := fileInfo_mkFiles 1001
    have hlen : (fileInfo (mkFiles 1001)).length = 1001 := by
      rw [hfi, mkFiles_length]
    have htgt : ∀ j, j < (fileInfo (mkFiles 1001)).length →
        targetName j ∉ (mkFiles 1001).map FileEntry.name := by
      intro j hj
      exact mkFiles_targets 1001 j
    have hne : fileInfo (mkFiles 1001) ≠ [] := by
      intro h0
      rw [h0, List.length_nil] at hlen
      omega
    have hrun := rename_run_eq (mkFiles 1001) hfs htgt hne
    have hclen : (rankedCandidates (mkFiles 1001)).length = 1001 := by
      rw [(rankedCandidates_perm _).length_eq, hlen]
    have hk : 1000 < (rankedCandidates (mkFiles 1001)).length := by omega
    have hnodup : (rankedCandidates (mkFiles 1001)).Nodup :=
      (rankedCandidates_pairwise hfs).imp
        (fun hab he => hab (congrArg FileEntry.name he))
    have hmem : { (rankedCandidates (mkFiles 1001)).get ⟨1000, hk⟩
        with name := targetName 1000 }
        ∈ (rename_images_by_age (fun _ => none) (mkFiles 1001)).1 := by
      rw [hrun]
      refine List.mem_map.mpr
        ⟨(rankedCandidates (mkFiles 1001)).get ⟨1000, hk⟩,
         rankedCandidates_mem_fs (get_mem' hk), ?_⟩
      have hidx : List.indexOf ((rankedCandidates (mkFiles 1001)).get ⟨1000, hk⟩)
          (rankedCandidates (mkFiles 1001)) = 1000 := by
        rw [List.get_eq_getElem]
        exact List.indexOf_getElem hnodup 1000 hk
      unfold applyRen
      rw [if_pos ⟨get_mem' hk, by rw [hidx]; omega⟩, hidx]
    refine ⟨{ (rankedCandidates (mkFiles 1001)).get ⟨1000, hk⟩
        with name := targetName 1000 }, hmem, ?_, ?_⟩
    · show targetName 1000 = "1000.jpg"
      decide
    · refine mem_fileInfo.mpr ⟨hmem, ?_, ?_, ?_⟩
      · show strStartsWith (targetName 1000) "." = false
        decide
      · refine Or.inl ?_
        show strEndsWith (targetName 1000) ".jpg" = true
        decide
      · show strStartsWith (targetName 1000) "0" = false
        decide
  · exact fun j hj => strStartsWith_targetName_zero hj

/-- Witness for C10's protection bound: the rank-5 target name starts with
`'0'` and is therefore skipped by later runs. -/
theorem c10_rank1000_reselected_witness :
    strStartsWith (targetName 5) "0" = true :=
  c10_rank1000_reselected.2 5 (by decide)
